import Mathlib

/-!
Verification of the `walks` package: a concurrent directory walker (`Walk` /
`walk`), a linear walker (`WalkLinear`), and an ignore-pattern compiler
(`SetIgnore`), embedded shallowly from `walks.go`.

A filesystem subtree is modelled as a rose tree of named entries; the walkers
return `none` where the Go code calls `log.Fatal` (the process dies), and
`some (files, dirs)` with the lists of paths passed to `fileAction` and
`dirAction` on a completing run.  The concurrent walker's task interleaving is
serialized depth-first; the sets of visited paths, which is what the spec
talks about, are insensitive to that serialization.
-/

namespace Walks

/-- Filesystem entry as distinguished by `path.Mode()` in the source: a
regular file, a directory with its list of immediate entries, or an entry of
any other kind (symlink, socket, device, ...), which the walkers treat as
fatal. -/
inductive FSTree where
  | file (name : String)
  | dir (name : String) (children : List FSTree)
  | other (name : String)
deriving Repr

/-- The entry's `path.Name()`. -/
def FSTree.name : FSTree → String
  | .file n => n
  | .dir n _ => n
  | .other n => n

/-! ## Model of Go `regexp` on the fragment emitted by `SetIgnore`

`SetIgnore` builds pattern strings that are alternations (`|`) of lines in
which every literal dot has been escaped as `\.` and in which the lines `.`
and `..` have been rewritten to the anchored forms `^\.$` / `^\.\.$`.  Go's
`Regexp.MatchString` finds an unanchored match: on this fragment a branch
`^lit$` matches exactly the literal string, and any other branch matches as a
plain substring.  `regexp.MustCompile("")` matches every string (the empty
pattern matches at position 0), which the model reproduces. -/

/-- Split a character list at every occurrence of `sep`, keeping empty
pieces: the behaviour of Go `strings.Split` (and of `String.splitOn`) for a
one-character separator.  The empty input yields one empty piece. -/
def splitChars (sep : Char) : List Char → List (List Char)
  | [] => [[]]
  | c :: cs =>
    if c == sep then [] :: splitChars sep cs
    else
      match splitChars sep cs with
      | [] => [[c]]
      | g :: gs => (c :: g) :: gs

/-- String-level wrapper for `splitChars`. -/
def splitOnChar (sep : Char) (s : String) : List String :=
  (splitChars sep s.toList).map fun g => String.mk g

/-- Replace every dot by backslash-dot: Go
`strings.Replace(line, ".", "\\.", -1)`. -/
def escapeDotsChars : List Char → List Char
  | [] => []
  | c :: cs => if c == '.' then '\\' :: '.' :: escapeDotsChars cs else c :: escapeDotsChars cs

/-- String-level wrapper for `escapeDotsChars`. -/
def escapeDots (s : String) : String :=
  String.mk (escapeDotsChars s.toList)

/-- Undo the `\.` escaping that `SetIgnore` applied (leftmost-first, the way
`strings.Replace` inserted it), recovering the literal text a branch stands
for. -/
def unescapeDotsChars : List Char → List Char
  | [] => []
  | '\\' :: '.' :: cs => '.' :: unescapeDotsChars cs
  | c :: cs => c :: unescapeDotsChars cs

/-- String-level wrapper for `unescapeDotsChars`. -/
def unescapeDots (p : String) : String :=
  String.mk (unescapeDotsChars p.toList)

/-- Does the character list `t` start with the pattern `p`? -/
def startsWithChars : List Char → List Char → Bool
  | [], _ => true
  | _ :: _, [] => false
  | p :: ps, t :: ts => p == t && startsWithChars ps ts

/-- Does the character list `t` contain the pattern `p` as a contiguous run
(substring containment)? -/
def containsChars (p : List Char) : List Char → Bool
  | [] => startsWithChars p []
  | t :: ts => startsWithChars p (t :: ts) || containsChars p ts

/-- One alternation branch of a compiled ignore pattern, matched against `s`
with Go `MatchString` semantics on the emitted fragment: `^lit$` is an exact
match, anything else an unanchored substring match. -/
def branchMatches (branch s : String) : Bool :=
  match branch.toList with
  | '^' :: inner =>
    if inner.getLast? == some '$' then
      s.toList == unescapeDotsChars inner.dropLast
    else containsChars (unescapeDotsChars branch.toList) s.toList
  | _ => containsChars (unescapeDotsChars branch.toList) s.toList

/-- Model of `Ignore.MatchString s` for a compiled pattern string: true when
any `|`-alternation branch matches. -/
def matchString (pattern s : String) : Bool :=
  (splitOnChar '|' pattern).any fun b => branchMatches b s

/-- The skip condition of both walkers (lines 88 and 123):
`Ignore.MatchString(pathName) && Ignore.String() != ""`.  The ignore matcher
is represented by its pattern source string, which is exactly what
`Ignore.String()` returns. -/
def ignoreSkip (ign pathName : String) : Bool :=
  matchString ign pathName && ign != ""

/-! ## The ignore compiler (`SetIgnore`, lines 27-58) -/

/-- The line loop of `SetIgnore` (lines 41-53): `i` is the index in the full
split, `ign` the pattern accumulated so far.  Iteration stops at the first
empty line; from the second line on a `|` separator is prepended; a line that
is exactly `.` or `..` is anchored as `^line$`; every dot in the line is then
escaped. -/
def compileGo : Nat → String → List String → String
  | _, ign, [] => ign
  | i, ign, line :: rest =>
    if line == "" then ign
    else
      let ign1 := if i != 0 then ign ++ "|" else ign
      let line1 := if line == "." || line == ".." then "^" ++ line ++ "$" else line
      compileGo (i + 1) (ign1 ++ escapeDots line1) rest

/-- The pattern `SetIgnore` compiles from a file's contents: the contents are
split on newlines (Go `strings.Split`) and fed to the line loop. -/
def compileIgnore (contents : String) : String :=
  compileGo 0 "" (splitOnChar '\n' contents)

/-- Observable outcome of a non-fatal `SetIgnore` call: the new value of the
global `Ignore` pattern, whether `os.WriteFile(path, "", 0755)` was performed
(overwriting whatever was at the path with an empty file), and whether
`os.RemoveAll(path)` was performed at the end. -/
structure SetIgnoreEffect where
  ignore : String
  wroteEmpty : Bool
  removed : Bool
deriving Repr, DecidableEq

/-- Model of `SetIgnore` (lines 27-58).  `readRes` is the outcome of
`os.ReadFile ignFilePath`: `some contents` on success, `none` on any error
(absence, permissions, I/O error - the code never inspects the error kind,
and on error Go leaves `contents` as the nil slice, i.e. the empty string).
`writeOk` says whether the subsequent `os.WriteFile` of an empty file at the
same path succeeds.  The result is `none` where the code calls `log.Fatal`,
otherwise the effect on the global state, starting from prior pattern
`prior`. -/
def SetIgnore (ignFilePath : String) (readRes : Option String) (writeOk : Bool)
    (prior : String) : Option SetIgnoreEffect :=
  if ignFilePath == "" then some ⟨prior, false, false⟩
  else
    match readRes with
    | some contents => some ⟨compileIgnore contents, false, false⟩
    | none =>
      if writeOk then some ⟨compileIgnore "", true, true⟩
      else none

/-! ## The concurrent walker (`Walk` / `walk`, lines 64-102)

`walk` is modelled as the pair of lists of paths handed to `fileAction` and
`dirAction`, with `none` for a run on which some task hits `log.Fatal`.
Spawned subtasks are serialized at their spawn point; the visited sets are
unaffected. -/

/-- Sequencing of two tasks' visit results: both must complete normally and
their visit lists are concatenated. -/
def combine : Option (List String × List String) → Option (List String × List String) →
    Option (List String × List String)
  | some (fs, ds), some (fs', ds') => some (fs ++ fs', ds ++ ds')
  | _, _ => none

mutual

/-- Model of `walk` (lines 72-102) run on the subtree sitting at path
`root`: prune when `depth != -1 && level > depth` (this test precedes the
stat, so even a non-directory path returns silently when pruned), fatal when
the path is not a directory, otherwise process the entries. -/
def walk (ign : String) (depth : Int) (root : String) (level : Int) :
    FSTree → Option (List String × List String)
  | .dir _ cs =>
    if depth ≠ -1 ∧ level > depth then some ([], [])
    else walkChildren ign depth root level cs
  | .file _ => if depth ≠ -1 ∧ level > depth then some ([], []) else none
  | .other _ => if depth ≠ -1 ∧ level > depth then some ([], []) else none
termination_by t => (sizeOf t, 0)

/-- One iteration of `walk`'s entry loop (lines 86-101): build
`pathName = root + "/" + name`, skip on the ignore condition, and otherwise
fire `dirAction` and spawn a recursive task at `level+1` for a directory,
fire `fileAction` for a regular file, and die on any other entry kind. -/
def walkEntry (ign : String) (depth : Int) (root : String) (level : Int) :
    FSTree → Option (List String × List String)
  | c =>
    let pathName := root ++ "/" ++ c.name
    if ignoreSkip ign pathName then some ([], [])
    else
      match c with
      | .dir _ _ =>
        (walk ign depth pathName (level + 1) c).map fun p => (p.1, pathName :: p.2)
      | .file _ => some ([pathName], [])
      | .other _ => none
termination_by c => (sizeOf c, 1)

/-- The entry loop of `walk` over a directory's listing. -/
def walkChildren (ign : String) (depth : Int) (root : String) (level : Int) :
    List FSTree → Option (List String × List String)
  | [] => some ([], [])
  | c :: rest =>
    combine (walkEntry ign depth root level c) (walkChildren ign depth root level rest)
termination_by cs => (sizeOf cs, 0)

end

/-- Model of the exported `Walk` (lines 64-68): it bootstraps the root task at
level 0 and blocks on the shared counter until every task finished. -/
def Walk (ign : String) (depth : Int) (root : String) (t : FSTree) :
    Option (List String × List String) :=
  walk ign depth root 0 t

/-! ## The linear walker (`WalkLinear`, lines 108-136) -/

mutual

/-- Model of `WalkLinear` (lines 108-136) on the subtree at path `root`:
return when `level == depth` (this test precedes the stat), fatal when the
path is not a directory, otherwise process the entries recursively on the
same thread. -/
def WalkLinear (ign : String) (depth : Int) (root : String) (level : Int) :
    FSTree → Option (List String × List String)
  | .dir _ cs =>
    if level = depth then some ([], [])
    else walkLinearChildren ign depth root level cs
  | .file _ => if level = depth then some ([], []) else none
  | .other _ => if level = depth then some ([], []) else none
termination_by t => (sizeOf t, 0)

/-- One iteration of `WalkLinear`'s entry loop (lines 121-135): identical to
the concurrent walker's, except that the directory case recurses by an
ordinary call at `level+1`. -/
def walkLinearEntry (ign : String) (depth : Int) (root : String) (level : Int) :
    FSTree → Option (List String × List String)
  | c =>
    let pathName := root ++ "/" ++ c.name
    if ignoreSkip ign pathName then some ([], [])
    else
      match c with
      | .dir _ _ =>
        (WalkLinear ign depth pathName (level + 1) c).map fun p => (p.1, pathName :: p.2)
      | .file _ => some ([pathName], [])
      | .other _ => none
termination_by c => (sizeOf c, 1)

/-- The entry loop of `WalkLinear` over a directory's listing. -/
def walkLinearChildren (ign : String) (depth : Int) (root : String) (level : Int) :
    List FSTree → Option (List String × List String)
  | [] => some ([], [])
  | c :: rest =>
    combine (walkLinearEntry ign depth root level c)
      (walkLinearChildren ign depth root level rest)
termination_by cs => (sizeOf cs, 0)

end

/-! ## Derived notions used to state the claims -/

/-- Is the entry of the unsupported third kind? -/
def FSTree.isOther : FSTree → Bool
  | .other _ => true
  | _ => false

/-- The file paths of the entries directly under `root`. -/
def filesDirectly (root : String) (cs : List FSTree) : List String :=
  cs.filterMap fun c =>
    match c with
    | .file n => some (root ++ "/" ++ n)
    | _ => none

/-- The directory paths of the entries directly under `root`. -/
def dirsDirectly (root : String) (cs : List FSTree) : List String :=
  cs.filterMap fun c =>
    match c with
    | .dir n _ => some (root ++ "/" ++ n)
    | _ => none

mutual

/-- Does the subtree contain no entry of the unsupported kind? -/
def noOther : FSTree → Bool
  | .file _ => true
  | .other _ => false
  | .dir _ cs => noOtherList cs
termination_by t => (sizeOf t, 0)

/-- Does the entry list contain no entry of the unsupported kind? -/
def noOtherList : List FSTree → Bool
  | [] => true
  | c :: rest => noOther c && noOtherList rest
termination_by cs => (sizeOf cs, 0)

end

mutual

/-- All file paths and directory paths strictly below the directory sitting
at `root`: what a walk with no ignore configuration and no depth bound is
expected to visit. -/
def entriesDir (root : String) : FSTree → List String × List String
  | .dir _ cs => entriesList root cs
  | .file _ => ([], [])
  | .other _ => ([], [])
termination_by t => (sizeOf t, 0)

/-- The paths contributed by one entry under `root`: the entry's own path,
plus (for a directory) everything below it. -/
def entriesEntry (root : String) : FSTree → List String × List String
  | c =>
    let pathName := root ++ "/" ++ c.name
    match c with
    | .file _ => ([pathName], [])
    | .dir _ _ => ((entriesDir pathName c).1, pathName :: (entriesDir pathName c).2)
    | .other _ => ([], [])
termination_by c => (sizeOf c, 1)

/-- The paths contributed by a directory's entry list under `root`. -/
def entriesList (root : String) : List FSTree → List String × List String
  | [] => ([], [])
  | c :: rest =>
    ((entriesEntry root c).1 ++ (entriesList root rest).1,
      (entriesEntry root c).2 ++ (entriesList root rest).2)
termination_by cs => (sizeOf cs, 0)

end

/-- The depth at which the linear walker visits the same set of entries as
the concurrent walker run at depth `d`: the cutoff tests `level > d`
(concurrent) and `level = shiftDepth d` (linear) agree on every level a walk
starting at level 0 can reach. -/
def shiftDepth (d : Int) : Int :=
  if d = -1 then -1 else d + 1

/-! ## The synchronization counter (`WaitGroup`, line 17)

`WaitGroup` is a single package-level variable.  Its state is one integer
counter; `Add n` adds `n`, `Done` subtracts one, and `Wait` blocks until the
counter is zero.  The operations every task of a `Walk` invocation performs
on it are recorded as a trace; concurrent tasks' traces are serialized at
their spawn points, which leaves the counter's final value (a sum)
unchanged. -/

/-- One operation on the shared counter. -/
inductive SyncOp where
  | add (n : Int)
  | done
deriving Repr, DecidableEq

/-- Effect of one operation on the counter's value. -/
def applyOp (c : Int) : SyncOp → Int
  | .add n => c + n
  | .done => c - 1

/-- The counter's value after a trace runs, starting from `c`. -/
def runOps (c : Int) (ops : List SyncOp) : Int :=
  ops.foldl applyOp c

/-- Does `Wait` unblock at this counter value? -/
def waitUnblocked (c : Int) : Prop :=
  c = 0

/-- Sequencing of two tasks' counter traces. -/
def combineOps : Option (List SyncOp) → Option (List SyncOp) → Option (List SyncOp)
  | some a, some b => some (a ++ b)
  | _, _ => none

mutual

/-- The counter operations of one `walk` task (lines 72-102): its deferred
`Done` runs when the task returns, whether pruned or not; `none` where the
task dies fatally (on `log.Fatal` the process exits and the trace is moot). -/
def walkOps (ign : String) (depth : Int) (root : String) (level : Int) :
    FSTree → Option (List SyncOp)
  | .dir _ cs =>
    if depth ≠ -1 ∧ level > depth then some [.done]
    else (walkChildrenOps ign depth root level cs).map fun ops => ops ++ [.done]
  | .file _ => if depth ≠ -1 ∧ level > depth then some [.done] else none
  | .other _ => if depth ≠ -1 ∧ level > depth then some [.done] else none
termination_by t => (sizeOf t, 0)

/-- The counter operations one loop iteration issues: `WaitGroup.Add(1)`
followed by the spawned task's own trace for a directory entry, nothing for
a file, fatal for the unsupported kind. -/
def walkEntryOps (ign : String) (depth : Int) (root : String) (level : Int) :
    FSTree → Option (List SyncOp)
  | c =>
    let pathName := root ++ "/" ++ c.name
    if ignoreSkip ign pathName then some []
    else
      match c with
      | .dir _ _ =>
        (walkOps ign depth pathName (level + 1) c).map fun ops => SyncOp.add 1 :: ops
      | .file _ => some []
      | .other _ => none
termination_by c => (sizeOf c, 1)

/-- The counter operations of a task's whole entry loop. -/
def walkChildrenOps (ign : String) (depth : Int) (root : String) (level : Int) :
    List FSTree → Option (List SyncOp)
  | [] => some []
  | c :: rest =>
    combineOps (walkEntryOps ign depth root level c)
      (walkChildrenOps ign depth root level rest)
termination_by cs => (sizeOf cs, 0)

end

/-- The counter operations of a whole `Walk` invocation (lines 64-68):
`WaitGroup.Add(2)` at entry, then the bootstrap goroutine, which runs the
root task and finally its own deferred `Done`. -/
def WalkOps (ign : String) (depth : Int) (root : String) (t : FSTree) :
    Option (List SyncOp) :=
  (walkOps ign depth root 0 t).map fun ops => SyncOp.add 2 :: (ops ++ [SyncOp.done])

/-! ## General lemmas -/

/-- The empty pattern is guarded out: with the initial matcher
(`regexp.MustCompile("")`) nothing is ever skipped, because
`Ignore.String() != ""` fails even though the empty pattern matches every
string. -/
theorem ignoreSkip_empty (p : String) : ignoreSkip "" p = false := by
  simp [ignoreSkip]

/-- The line loop never reads past the first empty line: whatever follows it
(including the dangling empty piece produced by a trailing newline)
contributes nothing to the pattern. -/
theorem compileGo_stops_at_blank (ls rest : List String) (i : Nat) (acc : String) :
    compileGo i acc (ls ++ "" :: rest) = compileGo i acc ls := by
  induction ls generalizing i acc with
  | nil => simp [compileGo]
  | cons l ls ih =>
    simp only [List.cons_append, compileGo, List.append_eq, ih]

/-- Running a concatenated trace runs the pieces in sequence. -/
theorem runOps_append (c : Int) (xs ys : List SyncOp) :
    runOps c (xs ++ ys) = runOps (runOps c xs) ys := by
  simp [runOps, List.foldl_append]

/-! ## C3: the linear walker's cutoff -/

/-- C3: `WalkLinear` called with `level = depth` returns immediately - no
action fires and no directory is listed (the result does not depend on the
subtree at all), because the cutoff `level == depth` is tested before this
level's own dirAction/listing.  By contrast the concurrent walker, whose test
is `level > depth`, still visits the whole entry list of its root when
`level = depth` (shown at depth 0 on a one-file tree). -/
theorem walkLinear_cutoff_at_equal_level (ign : String) (d : Int) (root : String)
    (t : FSTree) :
    WalkLinear ign d root d t = some ([], []) ∧
    Walk "" 0 "r" (.dir "r" [.file "a"]) = some (["r/a"], []) := by
  constructor
  · cases t <;> simp [WalkLinear]
  · simp [Walk, walk, walkEntry, walkChildren, combine, ignoreSkip, FSTree.name]

/-! ## C6: read failure on the ignore file -/

/-- C6 counterexample: an ignore file that exists but cannot be read is one
of the cases modelled by a failing `os.ReadFile` (`readRes = none` - the code
never inspects which error occurred).  When the follow-up `os.WriteFile` of
an empty file succeeds (e.g. a write-only file, or a transient read I/O
error), `SetIgnore` does NOT terminate the process: it overwrites the
existing file with empty content (`wroteEmpty = true`), compiles the empty
matcher, and then deletes the file (`removed = true`) - contradicting the
claim that it fails fatally without altering or deleting the file. -/
theorem setIgnore_read_error_cex :
    SetIgnore "ign" none true "prior" = some ⟨"", true, true⟩ := by decide

/-- C6 amended: for a non-empty path whose read fails, `SetIgnore` is fatal
exactly when the follow-up write of an empty file also fails; when the write
succeeds, the path is overwritten with an empty file, the matcher is reset to
the empty pattern, and the file is then deleted. -/
theorem setIgnore_read_error (path prior : String) (h : path ≠ "") :
    SetIgnore path none false prior = none ∧
    SetIgnore path none true prior = some ⟨"", true, true⟩ := by
  have hb : (path == "") = false := by simp [h]
  have hc : compileIgnore "" = "" := by decide
  constructor <;> simp [SetIgnore, hb, hc]

/-- Witness for C6 at a concrete path. -/
theorem setIgnore_read_error_witness :
    "ign" ≠ "" ∧
    (SetIgnore "ign" none false "p" = none ∧
      SetIgnore "ign" none true "p" = some ⟨"", true, true⟩) :=
  ⟨by decide, setIgnore_read_error "ign" "p" (by decide)⟩

/-! ## C7: truncation at the first empty line -/

/-- C7: compilation processes the split lines in order and stops at the first
empty one - whenever the split of the contents has the shape
`ls ++ "" :: rest`, the compiled pattern is exactly the one compiled from
`ls`: a pattern line after an embedded blank line contributes nothing, and
the empty piece a single trailing newline produces is not itself turned into
a pattern. -/
theorem compile_stops_at_first_empty_line (content : String) (ls rest : List String)
    (h : splitOnChar '\n' content = ls ++ "" :: rest) :
    compileIgnore content = compileGo 0 "" ls := by
  rw [compileIgnore, h, compileGo_stops_at_blank]

/-- Witness for C7: an embedded blank line (`"a\nb\n\nc"` compiles to `a|b`,
the `c` is lost) and a trailing newline (`"a\n"` compiles to `a`, no empty
alternative is added). -/
theorem compile_stops_at_first_empty_line_witness :
    (splitOnChar '\n' "a\nb\n\nc" = ["a", "b"] ++ "" :: ["c"] ∧
      compileIgnore "a\nb\n\nc" = compileGo 0 "" ["a", "b"]) ∧
    (splitOnChar '\n' "a\n" = ["a"] ++ "" :: [] ∧
      compileIgnore "a\n" = compileGo 0 "" ["a"]) ∧
    compileGo 0 "" ["a", "b"] = "a|b" ∧ compileGo 0 "" ["a"] = "a" :=
  ⟨⟨by decide, compile_stops_at_first_empty_line "a\nb\n\nc" ["a", "b"] ["c"] (by decide)⟩,
    ⟨by decide, compile_stops_at_first_empty_line "a\n" ["a"] [] (by decide)⟩,
    by decide, by decide⟩

/-! ## C8: an ignore file consisting of the single line `.` -/

/-- C8: the content `"."` compiles to the anchored, dot-escaped pattern
`^\.$`, whose matcher accepts exactly the path string `"."` and nothing else;
in particular `"foo.bar"` is not matched. -/
theorem ignore_dot_matches_only_dot (s : String) :
    compileIgnore "." = "^\\.$" ∧
    matchString (compileIgnore ".") s = (s == ".") ∧
    matchString (compileIgnore ".") "foo.bar" = false := by
  refine ⟨rfl, ?_, by decide⟩
  have hsplit : splitOnChar '|' (compileIgnore ".") = ["^\\.$"] := by decide
  rw [matchString, hsplit]
  simp only [List.any_cons, List.any_nil, Bool.or_false]
  rw [branchMatches]
  cases s with
  | mk data =>
    simp [String.toList, unescapeDotsChars, String.ext_iff]

/-! ## Full traversal under the empty matcher and no depth bound -/

mutual

/-- With the empty matcher and depth -1, one loop iteration visits exactly
the entry's own contribution (assuming no unsupported entry below it). -/
theorem walk_unbounded_entry (c : FSTree) (root : String) (l : Int)
    (h : noOther c = true) :
    walkEntry "" (-1) root l c = some (entriesEntry root c) := by
  cases c with
  | file n => simp [walkEntry, entriesEntry, ignoreSkip_empty]
  | other n => rw [noOther] at h; exact absurd h (by decide)
  | dir n cs =>
    rw [noOther] at h
    have hc := walk_unbounded_children cs (root ++ "/" ++ n) (l + 1) h
    simp [walkEntry, entriesEntry, entriesDir, ignoreSkip_empty, FSTree.name, walk, hc]
termination_by (sizeOf c, 1)

/-- With the empty matcher and depth -1, the entry loop visits exactly the
list's contribution (assuming no unsupported entry below it). -/
theorem walk_unbounded_children (cs : List FSTree) (root : String) (l : Int)
    (h : noOtherList cs = true) :
    walkChildren "" (-1) root l cs = some (entriesList root cs) := by
  cases cs with
  | nil => simp [walkChildren, entriesList]
  | cons c rest =>
    rw [noOtherList, Bool.and_eq_true] at h
    have h1 := walk_unbounded_entry c root l h.1
    have h2 := walk_unbounded_children rest root l h.2
    simp [walkChildren, entriesList, h1, h2, combine]
termination_by (sizeOf cs, 0)

end

/-! ## C5: `SetIgnore` with the empty path -/

/-- C5 counterexample: `SetIgnore("")` does not leave a matches-nothing
matcher - it is a pure no-op that keeps whatever matcher was configured
before.  With the prior matcher compiled from the ignore line `a`, the
matcher still matches after `SetIgnore("")`, and a subsequent walk skips
`r/a` and visits nothing, while the genuinely empty matcher would have
visited it. -/
theorem setIgnore_empty_path_cex :
    SetIgnore "" none true (compileIgnore "a") =
      some ⟨compileIgnore "a", false, false⟩ ∧
    ignoreSkip (compileIgnore "a") "r/a" = true ∧
    Walk (compileIgnore "a") (-1) "r" (.dir "r" [.file "a"]) = some ([], []) ∧
    Walk "" (-1) "r" (.dir "r" [.file "a"]) = some (["r/a"], []) := by
  have hs : ignoreSkip (compileIgnore "a") "r/a" = true := by decide
  refine ⟨by decide, hs, ?_, ?_⟩ <;>
    simp [Walk, walk, walkEntry, walkChildren, combine, FSTree.name, hs, ignoreSkip_empty]

/-- C5 amended: `SetIgnore` with the empty path is a no-op, leaving the prior
matcher in place (in particular it performs no write and no removal); only
when the prior matcher is the initial empty one does a subsequent walk visit
every entry of the tree (here: an unbounded concurrent walk of a directory
tree with no unsupported entries visits exactly all entries below the
root). -/
theorem setIgnore_empty_path_noop (readRes : Option String) (writeOk : Bool)
    (prior root n : String) (cs : List FSTree) (h : noOtherList cs = true) :
    SetIgnore "" readRes writeOk prior = some ⟨prior, false, false⟩ ∧
    Walk "" (-1) root (.dir n cs) = some (entriesList root cs) := by
  constructor
  · cases readRes <;> simp [SetIgnore]
  · have hc := walk_unbounded_children cs root 0 h
    simp [Walk, walk, hc]

/-- Witness for C5 on a two-level tree. -/
theorem setIgnore_empty_path_noop_witness :
    noOtherList [FSTree.file "a", FSTree.dir "d" [FSTree.file "b"]] = true ∧
    (SetIgnore "" none true "p" = some ⟨"p", false, false⟩ ∧
      Walk "" (-1) "r" (.dir "r" [FSTree.file "a", FSTree.dir "d" [FSTree.file "b"]]) =
        some (entriesList "r" [FSTree.file "a", FSTree.dir "d" [FSTree.file "b"]])) :=
  ⟨by simp [noOtherList, noOther],
    setIgnore_empty_path_noop none true "p" "r" "r"
      [FSTree.file "a", FSTree.dir "d" [FSTree.file "b"]]
      (by simp [noOtherList, noOther])⟩

/-! ## C4: the concurrent walker at depth 0 -/

/-- C4: with the empty matcher and `depth = 0`, `Walk` fires the actions on
exactly the entries directly under the root - every immediate file and
directory is visited, and nothing strictly below the immediate children is
(the subtrees `cs` carry arbitrary content, including unsupported entries,
and never influence the result: a child task at level 1 fails the prune test
`depth != -1 && level > depth` and returns before listing anything). -/
theorem walk_depth0_direct_children (root n : String) (cs : List FSTree)
    (h : ∀ c ∈ cs, c.isOther = false) :
    Walk "" 0 root (.dir n cs) = some (filesDirectly root cs, dirsDirectly root cs) := by
  rw [Walk]
  rw [show walk "" 0 root 0 (.dir n cs) = walkChildren "" 0 root 0 cs by simp [walk]]
  induction cs with
  | nil => simp [walkChildren, filesDirectly, dirsDirectly]
  | cons c rest ih =>
    have hrest := ih fun c hc => h c (List.mem_cons_of_mem _ hc)
    cases c with
    | file m =>
      simp [walkChildren, walkEntry, combine, ignoreSkip_empty, FSTree.name,
        filesDirectly, dirsDirectly, List.filterMap_cons, hrest]
    | dir m cs' =>
      have hchild : walk "" 0 (root ++ "/" ++ m) 1 (.dir m cs') = some ([], []) := by
        simp [walk]
      simp [walkChildren, walkEntry, combine, ignoreSkip_empty, FSTree.name,
        filesDirectly, dirsDirectly, List.filterMap_cons, hrest, hchild]
    | other m =>
      have := h (.other m) (List.mem_cons_self _ _)
      simp [FSTree.isOther] at this

/-- Witness for C4: a root with one file, one directory (whose subtree holds
a file and an unsupported entry that are never reached), and nothing else. -/
theorem walk_depth0_direct_children_witness :
    (∀ c ∈ [FSTree.file "a", FSTree.dir "d" [FSTree.file "b", FSTree.other "s"]],
      c.isOther = false) ∧
    Walk "" 0 "r" (.dir "r" [FSTree.file "a", FSTree.dir "d" [FSTree.file "b", FSTree.other "s"]]) =
      some (filesDirectly "r" [FSTree.file "a", FSTree.dir "d" [FSTree.file "b", FSTree.other "s"]],
        dirsDirectly "r" [FSTree.file "a", FSTree.dir "d" [FSTree.file "b", FSTree.other "s"]]) :=
  ⟨by decide, walk_depth0_direct_children "r" "r"
    [FSTree.file "a", FSTree.dir "d" [FSTree.file "b", FSTree.other "s"]] (by decide)⟩

/-! ## C1: concurrent versus linear walker

On levels reachable from a start at level 0, the concurrent cutoff
`level > d` fires exactly where the linear cutoff `level = shiftDepth d`
does, so the two walkers agree when the linear one is run at the shifted
depth.  At the same depth they disagree (see the counterexample). -/

mutual

theorem walk_shift_tree (ign : String) (d : Int) (root : String) (l : Int)
    (t : FSTree) (h0 : 0 ≤ l) (h1 : d = -1 ∨ l ≤ d + 1) :
    walk ign d root l t = WalkLinear ign (shiftDepth d) root l t := by
  have key : (d ≠ -1 ∧ l > d) ↔ (l = shiftDepth d) := by
    rw [shiftDepth]
    by_cases hd : d = -1
    · subst hd
      rw [if_pos rfl]
      constructor
      · rintro ⟨h, -⟩; exact absurd rfl h
      · intro h; exfalso; omega
    · rw [if_neg hd]
      rcases h1 with h1 | h1
      · exact absurd h1 hd
      · constructor
        · rintro ⟨-, hgt⟩; omega
        · intro h; exact ⟨hd, by omega⟩
  have hnot : ¬(d ≠ -1 ∧ l > d) → (d = -1 ∨ l ≤ d) := by
    intro hP
    by_cases hd : d = -1
    · exact Or.inl hd
    · right
      rcases not_and_or.mp hP with h | h
      · exact absurd hd fun _ => h hd
      · omega
  cases t with
  | dir n cs =>
    rw [walk, WalkLinear]
    by_cases hP : d ≠ -1 ∧ l > d
    · rw [if_pos hP, if_pos (key.mp hP)]
    · rw [if_neg hP, if_neg fun hq => hP (key.mpr hq)]
      exact walk_shift_children ign d root l cs h0 (hnot hP)
  | file n =>
    rw [walk, WalkLinear]
    by_cases hP : d ≠ -1 ∧ l > d
    · rw [if_pos hP, if_pos (key.mp hP)]
    · rw [if_neg hP, if_neg fun hq => hP (key.mpr hq)]
  | other n =>
    rw [walk, WalkLinear]
    by_cases hP : d ≠ -1 ∧ l > d
    · rw [if_pos hP, if_pos (key.mp hP)]
    · rw [if_neg hP, if_neg fun hq => hP (key.mpr hq)]
termination_by (sizeOf t, 0)

theorem walk_shift_entry (ign : String) (d : Int) (root : String) (l : Int)
    (c : FSTree) (h0 : 0 ≤ l) (h1 : d = -1 ∨ l ≤ d) :
    walkEntry ign d root l c = walkLinearEntry ign (shiftDepth d) root l c := by
  cases c with
  | file n => simp [walkEntry, walkLinearEntry]
  | other n => simp [walkEntry, walkLinearEntry]
  | dir n cs =>
    have ht := walk_shift_tree ign d (root ++ "/" ++ FSTree.name (.dir n cs)) (l + 1)
      (.dir n cs) (by omega) (by rcases h1 with h | h; exacts [Or.inl h, Or.inr (by omega)])
    simp only [walkEntry, walkLinearEntry, ht]
termination_by (sizeOf c, 1)

theorem walk_shift_children (ign : String) (d : Int) (root : String) (l : Int)
    (cs : List FSTree) (h0 : 0 ≤ l) (h1 : d = -1 ∨ l ≤ d) :
    walkChildren ign d root l cs = walkLinearChildren ign (shiftDepth d) root l cs := by
  cases cs with
  | nil => rw [walkChildren, walkLinearChildren]
  | cons c rest =>
    rw [walkChildren, walkLinearChildren, walk_shift_entry ign d root l c h0 h1,
      walk_shift_children ign d root l rest h0 h1]
termination_by (sizeOf cs, 0)

end

/-- C1 counterexample: at `depth = 0` with the empty matcher the two walkers
do not visit the same sets.  On a root holding one file, the concurrent
walker passes `r/a` to `fileAction` (its cutoff `level > depth` lets the
level-0 task list the root), while `WalkLinear(root, _, _, 0, 0)` hits its
cutoff `level == depth` immediately and visits nothing. -/
theorem walk_walkLinear_depth0_cex :
    Walk "" 0 "r" (.dir "r" [.file "a"]) = some (["r/a"], []) ∧
    WalkLinear "" 0 "r" 0 (.dir "r" [.file "a"]) = some ([], []) ∧
    Walk "" 0 "r" (.dir "r" [.file "a"]) ≠ WalkLinear "" 0 "r" 0 (.dir "r" [.file "a"]) := by
  have h1 : Walk "" 0 "r" (.dir "r" [.file "a"]) = some (["r/a"], []) := by
    simp [Walk, walk, walkEntry, walkChildren, combine, ignoreSkip_empty, FSTree.name]
  have h2 : WalkLinear "" 0 "r" 0 (.dir "r" [.file "a"]) = some ([], []) := by
    simp [WalkLinear]
  refine ⟨h1, h2, ?_⟩
  rw [h1, h2]
  decide

/-- C1 amended: with the empty matcher the visit lists (hence the visited
sets) of the concurrent walker at depth `d` equal those of the linear walker
run at the shifted depth `shiftDepth d` (the same `-1` for an unlimited walk,
`d + 1` otherwise), for every depth `d ≥ -1`; at equal depths the equality
fails for `d = 0` (see the counterexample). -/
theorem walk_eq_walkLinear_shifted (d : Int) (root : String) (t : FSTree)
    (h : -1 ≤ d) :
    Walk "" d root t = WalkLinear "" (shiftDepth d) root 0 t := by
  rw [Walk]
  exact walk_shift_tree "" d root 0 t le_rfl (Or.inr (by omega))

/-- Witness for C1 on a two-level tree at depth 0. -/
theorem walk_eq_walkLinear_shifted_witness :
    (-1 : Int) ≤ 0 ∧
    Walk "" 0 "r" (.dir "r" [FSTree.file "a", FSTree.dir "d" [FSTree.file "b"]]) =
      WalkLinear "" (shiftDepth 0) "r" 0
        (.dir "r" [FSTree.file "a", FSTree.dir "d" [FSTree.file "b"]]) :=
  ⟨by decide, walk_eq_walkLinear_shifted 0 "r"
    (.dir "r" [FSTree.file "a", FSTree.dir "d" [FSTree.file "b"]]) (by decide)⟩

/-! ## C9: the linear walker started above its depth bound -/

mutual

theorem walkLinear_overrun_tree (ign : String) (d : Int) (root : String) (l : Int)
    (t : FSTree) (hd : 0 ≤ d) (hl : d < l) :
    WalkLinear ign d root l t = WalkLinear ign (-1) root l t := by
  have h1 : ¬(l = d) := by omega
  have h2 : ¬(l = -1) := by omega
  cases t with
  | dir n cs =>
    rw [WalkLinear, WalkLinear, if_neg h1, if_neg h2]
    exact walkLinear_overrun_children ign d root l cs hd hl
  | file n => rw [WalkLinear, WalkLinear, if_neg h1, if_neg h2]
  | other n => rw [WalkLinear, WalkLinear, if_neg h1, if_neg h2]
termination_by (sizeOf t, 0)

theorem walkLinear_overrun_entry (ign : String) (d : Int) (root : String) (l : Int)
    (c : FSTree) (hd : 0 ≤ d) (hl : d < l) :
    walkLinearEntry ign d root l c = walkLinearEntry ign (-1) root l c := by
  cases c with
  | file n => simp [walkLinearEntry]
  | other n => simp [walkLinearEntry]
  | dir n cs =>
    have ht := walkLinear_overrun_tree ign d (root ++ "/" ++ FSTree.name (.dir n cs))
      (l + 1) (.dir n cs) hd (by omega)
    simp only [walkLinearEntry, ht]
termination_by (sizeOf c, 1)

theorem walkLinear_overrun_children (ign : String) (d : Int) (root : String) (l : Int)
    (cs : List FSTree) (hd : 0 ≤ d) (hl : d < l) :
    walkLinearChildren ign d root l cs = walkLinearChildren ign (-1) root l cs := by
  cases cs with
  | nil => rw [walkLinearChildren, walkLinearChildren]
  | cons c rest =>
    rw [walkLinearChildren, walkLinearChildren,
      walkLinear_overrun_entry ign d root l c hd hl,
      walkLinear_overrun_children ign d root l rest hd hl]
termination_by (sizeOf cs, 0)

end

/-- C9: for every depth bound `d ≥ 0` and start level `l > d`, the linear
walker never applies the bound - the cutoff `level == depth` can never be
reached since the level only grows - so it behaves exactly as with the
unlimited sentinel depth `-1`: the entire subtree is traversed. -/
theorem walkLinear_no_cutoff_above_depth (ign : String) (d l : Int) (root : String)
    (t : FSTree) (hd : 0 ≤ d) (hl : d < l) :
    WalkLinear ign d root l t = WalkLinear ign (-1) root l t :=
  walkLinear_overrun_tree ign d root l t hd hl

/-- Witness for C9: depth 0, start level 1, two-level tree. -/
theorem walkLinear_no_cutoff_above_depth_witness :
    (0 : Int) ≤ 0 ∧ (0 : Int) < 1 ∧
    WalkLinear "" 0 "r" 1 (.dir "r" [FSTree.file "a", FSTree.dir "d" [FSTree.file "b"]]) =
      WalkLinear "" (-1) "r" 1
        (.dir "r" [FSTree.file "a", FSTree.dir "d" [FSTree.file "b"]]) :=
  ⟨by decide, by decide, walkLinear_no_cutoff_above_depth "" 0 1 "r"
    (.dir "r" [FSTree.file "a", FSTree.dir "d" [FSTree.file "b"]]) (by decide) (by decide)⟩

/-! ## C10: every visited path lies strictly below the walk's root -/

/-- A joined path is strictly longer than its parent. -/
theorem length_lt_join (root nm : String) : root.length < (root ++ "/" ++ nm).length := by
  have h1 : ("/" : String).length = 1 := rfl
  simp only [String.length_append, h1]
  omega

mutual

theorem walk_below_tree (ign : String) (d : Int) (root : String) (l : Int)
    (t : FSTree) (fs ds : List String) (q : String)
    (h : walk ign d root l t = some (fs, ds)) (hq : q ∈ fs ∨ q ∈ ds) :
    root.length < q.length ∧ ∃ par nm, q = par ++ "/" ++ nm := by
  cases t with
  | dir n cs =>
    rw [walk] at h
    by_cases hP : d ≠ -1 ∧ l > d
    · rw [if_pos hP] at h
      obtain ⟨rfl, rfl⟩ : fs = [] ∧ ds = [] := by
        constructor <;> injection h with h <;> simp_all
      simp at hq
    · rw [if_neg hP] at h
      exact walk_below_children ign d root l cs fs ds q h hq
  | file n =>
    rw [walk] at h
    by_cases hP : d ≠ -1 ∧ l > d
    · rw [if_pos hP] at h
      obtain ⟨rfl, rfl⟩ : fs = [] ∧ ds = [] := by
        constructor <;> injection h with h <;> simp_all
      simp at hq
    · rw [if_neg hP] at h; exact absurd h (by simp)
  | other n =>
    rw [walk] at h
    by_cases hP : d ≠ -1 ∧ l > d
    · rw [if_pos hP] at h
      obtain ⟨rfl, rfl⟩ : fs = [] ∧ ds = [] := by
        constructor <;> injection h with h <;> simp_all
      simp at hq
    · rw [if_neg hP] at h; exact absurd h (by simp)
termination_by (sizeOf t, 0)

theorem walk_below_entry (ign : String) (d : Int) (root : String) (l : Int)
    (c : FSTree) (fs ds : List String) (q : String)
    (h : walkEntry ign d root l c = some (fs, ds)) (hq : q ∈ fs ∨ q ∈ ds) :
    root.length < q.length ∧ ∃ par nm, q = par ++ "/" ++ nm := by
  revert h hq
  cases c with
  | file n =>
    intro h hq
    rw [walkEntry] at h
    by_cases hskip : ignoreSkip ign (root ++ "/" ++ FSTree.name (.file n)) = true
    · rw [if_pos hskip] at h
      obtain ⟨rfl, rfl⟩ : fs = [] ∧ ds = [] := by
        constructor <;> injection h with h <;> simp_all
      simp at hq
    · rw [if_neg hskip] at h
      obtain ⟨rfl, rfl⟩ : fs = [root ++ "/" ++ FSTree.name (.file n)] ∧ ds = [] := by
        constructor <;> injection h with h <;> simp_all
      have hq' : q = root ++ "/" ++ FSTree.name (.file n) := by
        rcases hq with hq | hq <;> simp_all
      exact hq' ▸ ⟨length_lt_join root _, root, _, rfl⟩
  | other n =>
    intro h hq
    rw [walkEntry] at h
    by_cases hskip : ignoreSkip ign (root ++ "/" ++ FSTree.name (.other n)) = true
    · rw [if_pos hskip] at h
      obtain ⟨rfl, rfl⟩ : fs = [] ∧ ds = [] := by
        constructor <;> injection h with h <;> simp_all
      simp at hq
    · rw [if_neg hskip] at h; exact absurd h (by simp)
  | dir n cs =>
    intro h hq
    rw [walkEntry] at h
    by_cases hskip : ignoreSkip ign (root ++ "/" ++ FSTree.name (.dir n cs)) = true
    · rw [if_pos hskip] at h
      obtain ⟨rfl, rfl⟩ : fs = [] ∧ ds = [] := by
        constructor <;> injection h with h <;> simp_all
      simp at hq
    · rw [if_neg hskip] at h
      simp only [Option.map_eq_some'] at h
      obtain ⟨⟨fs', ds'⟩, hw, hpair⟩ := h
      obtain ⟨rfl, rfl⟩ : fs' = fs ∧ (root ++ "/" ++ FSTree.name (.dir n cs)) :: ds' = ds :=
        ⟨congrArg Prod.fst hpair, congrArg Prod.snd hpair⟩
      rcases hq with hq | hq
      · have := walk_below_tree ign d (root ++ "/" ++ FSTree.name (.dir n cs)) (l + 1)
          (.dir n cs) fs' ds' q hw (Or.inl hq)
        exact ⟨lt_trans (length_lt_join root _) this.1, this.2⟩
      · rcases List.mem_cons.mp hq with hq | hq
        · exact hq ▸ ⟨length_lt_join root _, root, _, rfl⟩
        · have := walk_below_tree ign d (root ++ "/" ++ FSTree.name (.dir n cs)) (l + 1)
            (.dir n cs) fs' ds' q hw (Or.inr hq)
          exact ⟨lt_trans (length_lt_join root _) this.1, this.2⟩
termination_by (sizeOf c, 1)
decreasing_by
  all_goals subst_vars
  all_goals decreasing_tactic

theorem walk_below_children (ign : String) (d : Int) (root : String) (l : Int)
    (cs : List FSTree) (fs ds : List String) (q : String)
    (h : walkChildren ign d root l cs = some (fs, ds)) (hq : q ∈ fs ∨ q ∈ ds) :
    root.length < q.length ∧ ∃ par nm, q = par ++ "/" ++ nm := by
  cases cs with
  | nil =>
    rw [walkChildren] at h
    obtain ⟨rfl, rfl⟩ : fs = [] ∧ ds = [] := by
      constructor <;> injection h with h <;> simp_all
    simp at hq
  | cons c rest =>
    rw [walkChildren] at h
    cases he : walkEntry ign d root l c with
    | none => rw [he] at h; exact absurd h (by simp [combine])
    | some p =>
      cases hr : walkChildren ign d root l rest with
      | none => rw [he, hr] at h; exact absurd h (by simp [combine])
      | some p' =>
        rw [he, hr] at h
        obtain ⟨rfl, rfl⟩ : fs = p.1 ++ p'.1 ∧ ds = p.2 ++ p'.2 := by
          constructor <;> injection h with h <;> simp_all [combine]
        rcases hq with hq | hq <;> rcases List.mem_append.mp hq with hq | hq
        · exact walk_below_entry ign d root l c p.1 p.2 q (by rw [he]) (Or.inl hq)
        · exact walk_below_children ign d root l rest p'.1 p'.2 q (by rw [hr]) (Or.inl hq)
        · exact walk_below_entry ign d root l c p.1 p.2 q (by rw [he]) (Or.inr hq)
        · exact walk_below_children ign d root l rest p'.1 p'.2 q (by rw [hr]) (Or.inr hq)
termination_by (sizeOf cs, 0)

end

mutual

theorem walkLinear_below_tree (ign : String) (d : Int) (root : String) (l : Int)
    (t : FSTree) (fs ds : List String) (q : String)
    (h : WalkLinear ign d root l t = some (fs, ds)) (hq : q ∈ fs ∨ q ∈ ds) :
    root.length < q.length ∧ ∃ par nm, q = par ++ "/" ++ nm := by
  cases t with
  | dir n cs =>
    rw [WalkLinear] at h
    by_cases hP : l = d
    · rw [if_pos hP] at h
      obtain ⟨rfl, rfl⟩ : fs = [] ∧ ds = [] := by
        constructor <;> injection h with h <;> simp_all
      simp at hq
    · rw [if_neg hP] at h
      exact walkLinear_below_children ign d root l cs fs ds q h hq
  | file n =>
    rw [WalkLinear] at h
    by_cases hP : l = d
    · rw [if_pos hP] at h
      obtain ⟨rfl, rfl⟩ : fs = [] ∧ ds = [] := by
        constructor <;> injection h with h <;> simp_all
      simp at hq
    · rw [if_neg hP] at h; exact absurd h (by simp)
  | other n =>
    rw [WalkLinear] at h
    by_cases hP : l = d
    · rw [if_pos hP] at h
      obtain ⟨rfl, rfl⟩ : fs = [] ∧ ds = [] := by
        constructor <;> injection h with h <;> simp_all
      simp at hq
    · rw [if_neg hP] at h; exact absurd h (by simp)
termination_by (sizeOf t, 0)

theorem walkLinear_below_entry (ign : String) (d : Int) (root : String) (l : Int)
    (c : FSTree) (fs ds : List String) (q : String)
    (h : walkLinearEntry ign d root l c = some (fs, ds)) (hq : q ∈ fs ∨ q ∈ ds) :
    root.length < q.length ∧ ∃ par nm, q = par ++ "/" ++ nm := by
  revert h hq
  cases c with
  | file n =>
    intro h hq
    rw [walkLinearEntry] at h
    by_cases hskip : ignoreSkip ign (root ++ "/" ++ FSTree.name (.file n)) = true
    · rw [if_pos hskip] at h
      obtain ⟨rfl, rfl⟩ : fs = [] ∧ ds = [] := by
        constructor <;> injection h with h <;> simp_all
      simp at hq
    · rw [if_neg hskip] at h
      obtain ⟨rfl, rfl⟩ : fs = [root ++ "/" ++ FSTree.name (.file n)] ∧ ds = [] := by
        constructor <;> injection h with h <;> simp_all
      have hq' : q = root ++ "/" ++ FSTree.name (.file n) := by
        rcases hq with hq | hq <;> simp_all
      exact hq' ▸ ⟨length_lt_join root _, root, _, rfl⟩
  | other n =>
    intro h hq
    rw [walkLinearEntry] at h
    by_cases hskip : ignoreSkip ign (root ++ "/" ++ FSTree.name (.other n)) = true
    · rw [if_pos hskip] at h
      obtain ⟨rfl, rfl⟩ : fs = [] ∧ ds = [] := by
        constructor <;> injection h with h <;> simp_all
      simp at hq
    · rw [if_neg hskip] at h; exact absurd h (by simp)
  | dir n cs =>
    intro h hq
    rw [walkLinearEntry] at h
    by_cases hskip : ignoreSkip ign (root ++ "/" ++ FSTree.name (.dir n cs)) = true
    · rw [if_pos hskip] at h
      obtain ⟨rfl, rfl⟩ : fs = [] ∧ ds = [] := by
        constructor <;> injection h with h <;> simp_all
      simp at hq
    · rw [if_neg hskip] at h
      simp only [Option.map_eq_some'] at h
      obtain ⟨⟨fs', ds'⟩, hw, hpair⟩ := h
      obtain ⟨rfl, rfl⟩ : fs' = fs ∧ (root ++ "/" ++ FSTree.name (.dir n cs)) :: ds' = ds :=
        ⟨congrArg Prod.fst hpair, congrArg Prod.snd hpair⟩
      rcases hq with hq | hq
      · have := walkLinear_below_tree ign d (root ++ "/" ++ FSTree.name (.dir n cs)) (l + 1)
          (.dir n cs) fs' ds' q hw (Or.inl hq)
        exact ⟨lt_trans (length_lt_join root _) this.1, this.2⟩
      · rcases List.mem_cons.mp hq with hq | hq
        · exact hq ▸ ⟨length_lt_join root _, root, _, rfl⟩
        · have := walkLinear_below_tree ign d (root ++ "/" ++ FSTree.name (.dir n cs)) (l + 1)
            (.dir n cs) fs' ds' q hw (Or.inr hq)
          exact ⟨lt_trans (length_lt_join root _) this.1, this.2⟩
termination_by (sizeOf c, 1)
decreasing_by
  all_goals subst_vars
  all_goals decreasing_tactic

theorem walkLinear_below_children (ign : String) (d : Int) (root : String) (l : Int)
    (cs : List FSTree) (fs ds : List String) (q : String)
    (h : walkLinearChildren ign d root l cs = some (fs, ds)) (hq : q ∈ fs ∨ q ∈ ds) :
    root.length < q.length ∧ ∃ par nm, q = par ++ "/" ++ nm := by
  cases cs with
  | nil =>
    rw [walkLinearChildren] at h
    obtain ⟨rfl, rfl⟩ : fs = [] ∧ ds = [] := by
      constructor <;> injection h with h <;> simp_all
    simp at hq
  | cons c rest =>
    rw [walkLinearChildren] at h
    cases he : walkLinearEntry ign d root l c with
    | none => rw [he] at h; exact absurd h (by simp [combine])
    | some p =>
      cases hr : walkLinearChildren ign d root l rest with
      | none => rw [he, hr] at h; exact absurd h (by simp [combine])
      | some p' =>
        rw [he, hr] at h
        obtain ⟨rfl, rfl⟩ : fs = p.1 ++ p'.1 ∧ ds = p.2 ++ p'.2 := by
          constructor <;> injection h with h <;> simp_all [combine]
        rcases hq with hq | hq <;> rcases List.mem_append.mp hq with hq | hq
        · exact walkLinear_below_entry ign d root l c p.1 p.2 q (by rw [he]) (Or.inl hq)
        · exact walkLinear_below_children ign d root l rest p'.1 p'.2 q (by rw [hr]) (Or.inl hq)
        · exact walkLinear_below_entry ign d root l c p.1 p.2 q (by rw [he]) (Or.inr hq)
        · exact walkLinear_below_children ign d root l rest p'.1 p'.2 q (by rw [hr]) (Or.inr hq)
termination_by (sizeOf cs, 0)

end

/-- C10: neither walker ever passes the walk's own root path to an action:
every path handed to `fileAction` or `dirAction` by the concurrent walker
`Walk` or by `WalkLinear` has the form `parent ++ "/" ++ entryName` for some
parent, and (being strictly longer than the root) is never the root path
itself. -/
theorem actions_only_strictly_below_root (ign : String) (d l : Int) (root : String)
    (t : FSTree) (fs ds fs' ds' : List String) (q q' : String) :
    (Walk ign d root t = some (fs, ds) → (q ∈ fs ∨ q ∈ ds) →
      q ≠ root ∧ ∃ par nm, q = par ++ "/" ++ nm) ∧
    (WalkLinear ign d root l t = some (fs', ds') → (q' ∈ fs' ∨ q' ∈ ds') →
      q' ≠ root ∧ ∃ par nm, q' = par ++ "/" ++ nm) := by
  constructor
  · intro h hq
    have := walk_below_tree ign d root 0 t fs ds q h hq
    exact ⟨fun he => absurd (he ▸ this.1) (lt_irrefl _), this.2⟩
  · intro h hq
    have := walkLinear_below_tree ign d root l t fs' ds' q' h hq
    exact ⟨fun he => absurd (he ▸ this.1) (lt_irrefl _), this.2⟩

/-- Witness for C10: both walkers on a one-file tree, checked at the single
visited path `r/a`. -/
theorem actions_only_strictly_below_root_witness :
    ("r/a" ≠ "r" ∧ ∃ par nm, "r/a" = par ++ "/" ++ nm) ∧
    ("r/a" ≠ "r" ∧ ∃ par nm, ("r/a" : String) = par ++ "/" ++ nm) := by
  have hw : Walk "" (-1) "r" (.dir "r" [.file "a"]) = some (["r/a"], []) := by
    simp [Walk, walk, walkEntry, walkChildren, combine, ignoreSkip_empty, FSTree.name]
  have hl : WalkLinear "" (-1) "r" 0 (.dir "r" [.file "a"]) = some (["r/a"], []) := by
    simp [WalkLinear, walkLinearEntry, walkLinearChildren, combine, ignoreSkip_empty,
      FSTree.name]
  exact ⟨(actions_only_strictly_below_root "" (-1) 0 "r" (.dir "r" [.file "a"])
      ["r/a"] [] ["r/a"] [] "r/a" "r/a").1 hw (Or.inl (by decide)),
    (actions_only_strictly_below_root "" (-1) 0 "r" (.dir "r" [.file "a"])
      ["r/a"] [] ["r/a"] [] "r/a" "r/a").2 hl (Or.inl (by decide))⟩

/-! ## C2: the synchronization counter -/

mutual

theorem walkOps_balance_tree (ign : String) (d : Int) (root : String) (l : Int)
    (t : FSTree) (ops : List SyncOp) (h : walkOps ign d root l t = some ops)
    (c : Int) : runOps c ops = c - 1 := by
  cases t with
  | dir n cs =>
    rw [walkOps] at h
    by_cases hP : d ≠ -1 ∧ l > d
    · rw [if_pos hP] at h
      injection h with h
      subst h
      simp [runOps, applyOp]
    · rw [if_neg hP] at h
      cases hc : walkChildrenOps ign d root l cs with
      | none => rw [hc] at h; exact absurd h (by simp)
      | some ops' =>
        rw [hc] at h
        injection h with h
        subst h
        rw [runOps_append, walkOps_balance_children ign d root l cs ops' hc c]
        simp [runOps, applyOp]
  | file n =>
    rw [walkOps] at h
    by_cases hP : d ≠ -1 ∧ l > d
    · rw [if_pos hP] at h
      injection h with h
      subst h
      simp [runOps, applyOp]
    · rw [if_neg hP] at h; exact absurd h (by simp)
  | other n =>
    rw [walkOps] at h
    by_cases hP : d ≠ -1 ∧ l > d
    · rw [if_pos hP] at h
      injection h with h
      subst h
      simp [runOps, applyOp]
    · rw [if_neg hP] at h; exact absurd h (by simp)
termination_by (sizeOf t, 0)

theorem walkOps_balance_entry (ign : String) (d : Int) (root : String) (l : Int)
    (e : FSTree) (ops : List SyncOp) (h : walkEntryOps ign d root l e = some ops)
    (c : Int) : runOps c ops = c := by
  revert h
  cases e with
  | file n =>
    intro h
    rw [walkEntryOps] at h
    by_cases hskip : ignoreSkip ign (root ++ "/" ++ FSTree.name (.file n)) = true
    · rw [if_pos hskip] at h; injection h with h; subst h; rfl
    · rw [if_neg hskip] at h; injection h with h; subst h; rfl
  | other n =>
    intro h
    rw [walkEntryOps] at h
    by_cases hskip : ignoreSkip ign (root ++ "/" ++ FSTree.name (.other n)) = true
    · rw [if_pos hskip] at h; injection h with h; subst h; rfl
    · rw [if_neg hskip] at h; exact absurd h (by simp)
  | dir n cs =>
    intro h
    rw [walkEntryOps] at h
    by_cases hskip : ignoreSkip ign (root ++ "/" ++ FSTree.name (.dir n cs)) = true
    · rw [if_pos hskip] at h; injection h with h; subst h; rfl
    · rw [if_neg hskip] at h
      simp only [Option.map_eq_some'] at h
      obtain ⟨ops', hw, rfl⟩ := h
      have hrec := walkOps_balance_tree ign d (root ++ "/" ++ FSTree.name (.dir n cs))
        (l + 1) (.dir n cs) ops' hw (c + 1)
      calc runOps c (SyncOp.add 1 :: ops')
          = runOps (c + 1) ops' := rfl
        _ = c + 1 - 1 := hrec
        _ = c := by omega
termination_by (sizeOf e, 1)
decreasing_by
  all_goals subst_vars
  all_goals decreasing_tactic

theorem walkOps_balance_children (ign : String) (d : Int) (root : String) (l : Int)
    (cs : List FSTree) (ops : List SyncOp) (h : walkChildrenOps ign d root l cs = some ops)
    (c : Int) : runOps c ops = c := by
  cases cs with
  | nil =>
    rw [walkChildrenOps] at h
    injection h with h
    subst h
    rfl
  | cons e rest =>
    rw [walkChildrenOps] at h
    cases he : walkEntryOps ign d root l e with
    | none => rw [he] at h; exact absurd h (by simp [combineOps])
    | some ops1 =>
      cases hr : walkChildrenOps ign d root l rest with
      | none => rw [he, hr] at h; exact absurd h (by simp [combineOps])
      | some ops2 =>
        rw [he, hr] at h
        injection h with h
        subst h
        rw [runOps_append, walkOps_balance_entry ign d root l e ops1 he c,
          walkOps_balance_children ign d root l rest ops2 hr c]
termination_by (sizeOf cs, 0)

end

/-- C2 counterexample: the `WaitGroup` the walkers use is a single
package-level variable (line 17), so any two `Walk` invocations act on the
same counter - it is not created fresh per invocation.  Concretely: let
invocation B walk an empty directory; its complete trace is
`[Add 2, Done, Done]`, which alone would return the counter to 0 and let B's
`Wait` return.  If invocation A has merely entered `Walk` (its initial
`Add(2)`, the head of any invocation's trace) before B runs, the shared
counter after B's whole trace is 2, not 0: B's `Wait` observes A's
outstanding-task count and stays blocked, so the two invocations do observe
and modify each other's count. -/
theorem walk_counter_shared_cex :
    WalkOps "" (-1) "b" (.dir "b" []) = some [SyncOp.add 2, SyncOp.done, SyncOp.done] ∧
    runOps 0 [SyncOp.add 2, SyncOp.done, SyncOp.done] = 0 ∧
    runOps 0 (SyncOp.add 2 :: [SyncOp.add 2, SyncOp.done, SyncOp.done]) = 2 ∧
    ¬ waitUnblocked (runOps 0 (SyncOp.add 2 :: [SyncOp.add 2, SyncOp.done, SyncOp.done])) := by
  refine ⟨?_, by decide, by decide, by norm_num [waitUnblocked, runOps, applyOp]⟩
  simp [WalkOps, walkOps, walkChildrenOps]

/-- C2 amended: the counter is the one package-level `WaitGroup`, shared by
every `Walk` invocation rather than created fresh; what does hold is that
each completing invocation's operations are balanced: starting from any
counter value, running one invocation's whole trace returns the counter to
that value, so a `Walk` that runs without another invocation in flight
leaves the counter at zero and its final `Wait` unblocks. -/
theorem walk_invocation_ops_balanced (ign : String) (d : Int) (root : String)
    (t : FSTree) (ops : List SyncOp) (h : WalkOps ign d root t = some ops) :
    (∀ c : Int, runOps c ops = c) ∧ waitUnblocked (runOps 0 ops) := by
  rw [WalkOps] at h
  simp only [Option.map_eq_some'] at h
  obtain ⟨ops', hw, rfl⟩ := h
  have hbal : ∀ c : Int, runOps c (SyncOp.add 2 :: (ops' ++ [SyncOp.done])) = c := by
    intro c
    have h1 : runOps c (SyncOp.add 2 :: (ops' ++ [SyncOp.done]))
        = runOps (c + 2) (ops' ++ [SyncOp.done]) := rfl
    rw [h1, runOps_append, walkOps_balance_tree ign d root 0 t ops' hw (c + 2)]
    simp [runOps, applyOp]
    omega
  exact ⟨hbal, by rw [hbal 0]; rfl⟩

/-- Witness for C2 on a one-file tree. -/
theorem walk_invocation_ops_balanced_witness :
    WalkOps "" (-1) "r" (.dir "r" [FSTree.file "a"])
      = some [SyncOp.add 2, SyncOp.done, SyncOp.done] ∧
    ((∀ c : Int, runOps c [SyncOp.add 2, SyncOp.done, SyncOp.done] = c) ∧
      waitUnblocked (runOps 0 [SyncOp.add 2, SyncOp.done, SyncOp.done])) := by
  have h : WalkOps "" (-1) "r" (.dir "r" [FSTree.file "a"])
      = some [SyncOp.add 2, SyncOp.done, SyncOp.done] := by
    simp [WalkOps, walkOps, walkEntryOps, walkChildrenOps, combineOps,
      ignoreSkip_empty, FSTree.name]
  exact ⟨h, walk_invocation_ops_balanced "" (-1) "r" (.dir "r" [FSTree.file "a"]) _ h⟩

end Walks
